import Mathlib

/-!
Verification of the skill-weight scorer in `hr_intelligence_brain.py`
(`HRIntelligenceBrain`): prediction, reward calculation, policy update
(weight update, skill discovery, decay), and weight-table persistence.
Weights are modelled as exact rationals; the sigmoid squashing in
`predict_success` is modelled over the reals.
-/

set_option maxHeartbeats 1000000

namespace HRBrain

/-- Characterwise lowercasing, modelling Python `str.lower()` on the
string's character data. -/
def pyLower (s : String) : String := String.mk (s.data.map Char.toLower)

/-- Drop leading whitespace characters. -/
def dropWs (l : List Char) : List Char := l.dropWhile Char.isWhitespace

/-- Python `str.strip()`: remove leading and trailing whitespace. -/
def pyStrip (s : String) : String :=
  String.mk ((dropWs ((dropWs s.data).reverse)).reverse)

/-- Boolean test that the first character list is a prefix of the second. -/
def prefixOfB : List Char → List Char → Bool
  | [], _ => true
  | _ :: _, [] => false
  | a :: as, b :: bs => a == b && prefixOfB as bs

/-- Boolean test that `needle` occurs contiguously inside the second list. -/
def substrB (needle : List Char) : List Char → Bool
  | [] => needle.isEmpty
  | b :: bs => prefixOfB needle (b :: bs) || substrB needle bs

/-- Python's `a in b` on strings: `a` is a contiguous substring of `b`. -/
def pyIn (a b : String) : Bool := substrB a.data b.data

/-- Accumulator-based splitting of a character list into whitespace-separated
words, discarding empty chunks, modelling Python `str.split()`. -/
def wordsAux : List Char → List Char → List String
  | [], acc => if acc.isEmpty then [] else [String.mk acc.reverse]
  | c :: cs, acc =>
    if c.isWhitespace then
      if acc.isEmpty then wordsAux cs [] else String.mk acc.reverse :: wordsAux cs []
    else wordsAux cs (c :: acc)

/-- Python `str.split()` with no separator argument. -/
def pyWords (s : String) : List String := wordsAux s.data []

/-- Python `len(set(a.split()) & set(b.split())) > 0`: the two strings share
at least one whitespace-separated token. -/
def overlapB (a b : String) : Bool :=
  (pyWords a).any (fun t => (pyWords b).any (fun u => t == u))

/-- The in-memory weight table: an insertion-ordered association list from
skill keyword to weight, modelling the Python dict `self.weights`. -/
abbrev Table := List (String × ℚ)

/-- First-match association-list lookup, the access discipline of a Python
dict with unique keys. -/
def lookupQ (k : String) : Table → Option ℚ
  | [] => none
  | p :: t => if p.1 = k then some p.2 else lookupQ k t

/-- Per-keyword fuzzy-match loop of `predict_success`: walk the normalized
candidate skills in order; at the first skill that substring-matches the
keyword (either direction) score `weight * 0.8`, else at the first skill
with a word overlap score `weight * 0.6`; stop at the first hit. -/
def fuzzy_score (skill : String) (w : ℚ) : List String → ℚ
  | [] => 0
  | c :: rest =>
    if pyIn skill c || pyIn c skill then w * 0.8
    else if overlapB skill c then w * 0.6
    else fuzzy_score skill w rest

/-- Per-keyword match score of `predict_success`: full weight on exact
membership among the normalized skills, otherwise the fuzzy-match loop. -/
def keyword_score (skill : String) (w : ℚ) (ns : List String) : ℚ :=
  if skill ∈ ns then w else fuzzy_score skill w ns

/-- Sum of per-keyword match scores over the weight table. -/
def total_score (tbl : Table) (ns : List String) : ℚ :=
  (tbl.map (fun p => keyword_score p.1 p.2 ns)).sum

/-- Dynamic normalization of `predict_success`: zero for an empty table,
otherwise `total_score / max (len(skills) * average_weight) 1`. -/
def normalized_score (tbl : Table) (ns : List String) : ℚ :=
  if tbl.isEmpty then 0
  else total_score tbl ns /
    max ((ns.length : ℚ) * ((tbl.map Prod.snd).sum / (tbl.length : ℚ))) 1

/-- Normalize a list of skill values with `f`, failing (as Python raises
`AttributeError`) on any non-string entry, modelled as `Option.none`. -/
def normListE (f : String → String) : List (Option String) → Except Unit (List String)
  | [] => Except.ok []
  | Option.none :: _ => Except.error ()
  | Option.some s :: rest =>
    match normListE f rest with
    | Except.ok l => Except.ok (f s :: l)
    | Except.error e => Except.error e

/-- The logistic squashing of `predict_success`, steepness 5 centred at 0.5. -/
noncomputable def sigmoid (x : ℝ) : ℝ := 1 / (1 + Real.exp (-5 * (x - 0.5)))

/-- Rounding to three decimal places, modelling Python `round(x, 3)`. -/
noncomputable def round3 (x : ℝ) : ℝ := (round (1000 * x) : ℤ) / 1000

/-- `predict_success(candidate_data)`: `Option.none` input models a missing or
non-list `skills` field (defaulted to the empty list); an empty skill list
returns the base probability 0.2; a normalization failure is caught by the
outer `try` and also returns 0.2; otherwise the normalized skills are scored,
squashed, clamped to [0.05, 0.95] and rounded to three decimals. -/
noncomputable def predict_success (tbl : Table) (cd : Option (List (Option String))) : ℝ :=
  match cd.getD [] with
  | [] => 0.2
  | s :: rest =>
    match normListE (fun t => pyStrip (pyLower t)) (s :: rest) with
    | Except.error _ => 0.2
    | Except.ok ns =>
      round3 (max 0.05 (min 0.95 (sigmoid ((normalized_score tbl ns : ℚ) : ℝ))))

/-- Outcome component of `_calculate_reward`, keyed on the already-lowercased
outcome string. -/
def outcome_reward (o : String) : ℚ :=
  if o = "hired" ∨ o = "offer_accepted" ∨ o = "accept" then 1.5
  else if o = "shortlisted" ∨ o = "interview" ∨ o = "second_round" then 0.8
  else if o = "rejected" ∨ o = "declined" ∨ o = "reject" then -0.8
  else if o = "reconsider" ∨ o = "maybe" ∨ o = "pending" then 0.2
  else 0

/-- `_calculate_reward(feedback_score, outcome)`: weighted combination of the
normalized feedback score and the case-insensitive outcome reward, clamped
to [-2, 2]. -/
def calculate_reward (feedback_score : ℚ) (outcome : String) : ℚ :=
  max (-2) (min 2 ((feedback_score - 3) / 2 * 0.6 + outcome_reward (pyLower outcome) * 0.4))

/-- Clamp a weight to [0.1, 5.0] as in the existing-keyword update rule. -/
def clampW (x : ℚ) : ℚ := max 0.1 (min 5 x)

/-- Step 3 of `policy_update`: every keyword that is a substring of some
lowercased candidate skill moves to `clamp(w + 0.15 * reward, 0.1, 5.0)`. -/
def update_step (reward : ℚ) (ns : List String) (tbl : Table) : Table :=
  tbl.map (fun p =>
    if ns.any (fun s => pyIn p.1 s) then (p.1, clampW (p.2 + 0.15 * reward)) else p)

/-- Near-duplicate test of the skill-discovery loop: the existing keyword and
the cleaned skill contain one another or their lengths differ by less than 3. -/
def collide (k c : String) : Bool :=
  pyIn k c || pyIn c k || decide (Nat.dist k.length c.length < 3)

/-- Step 4 of `policy_update` (skill discovery): walk the normalized skills in
order; clean each (`strip` then `lower`), and if it collides with no current
keyword and its length is strictly between 2 and 25, append it with initial
weight `clamp(1 + 0.15 * reward * 2, 0.5, 3.0)` and mark the table updated. -/
def discover_loop (reward : ℚ) : List String → Table × Bool → Table × Bool
  | [], st => st
  | s :: rest, st =>
    let c := pyLower (pyStrip s)
    let st2 :=
      if st.1.all (fun p => !(collide p.1 c)) && decide (c.length < 25) && decide (2 < c.length)
      then (st.1 ++ [(c, max 0.5 (min 3 (1 + 0.15 * reward * 2)))], true)
      else st
    discover_loop reward rest st2

/-- Step 5 of `policy_update` (decay): every keyword not exactly equal to one
of the re-lowercased candidate skills has its weight multiplied by 0.999. -/
def decay_step (ns : List String) (tbl : Table) : Table :=
  tbl.map (fun p => if p.1 ∈ ns.map pyLower then p else (p.1, p.2 * 0.999))

/-- The `updated` flag contribution of the weight-update step: some existing
keyword is a substring of some candidate skill. -/
def updated_flag (tbl : Table) (ns : List String) : Bool :=
  tbl.any (fun p => ns.any (fun s => pyIn p.1 s))

/-- Steps 3 and 4 of `policy_update`: the weight-update step followed by the
reward-gated discovery step, threading the `updated` flag. -/
def pre_decay (tbl : Table) (ns : List String) (reward : ℚ) : Table × Bool :=
  if 0.3 < reward then
    discover_loop reward ns (update_step reward ns tbl, updated_flag tbl ns)
  else (update_step reward ns tbl, updated_flag tbl ns)

/-- `policy_update` on pre-lowercased skills `ns`: the weight-update step, the
gated discovery step, then decay when any update or insertion occurred.
Returns the new table and the `updated` flag (which gates persistence). -/
def policy_update_full (tbl : Table) (ns : List String) (reward : ℚ) : Table × Bool :=
  (if (pre_decay tbl ns reward).2 then decay_step ns (pre_decay tbl ns reward).1
   else (pre_decay tbl ns reward).1,
   (pre_decay tbl ns reward).2)

/-- `policy_update(candidate_data, reward)`: lowercase the skills and run the
full update pipeline, keeping the resulting table. -/
def policy_update (tbl : Table) (skills : List String) (reward : ℚ) : Table :=
  (policy_update_full tbl (skills.map pyLower) reward).1

/-- One `reward_log` call as it affects the weight table: compute the reward
from feedback score and outcome, then run `policy_update`. -/
def update_call (tbl : Table) (skills : List String) (fs : ℚ) (o : String) : Table :=
  policy_update tbl skills (calculate_reward fs o)

/-- The variant of the decay step described by the specification: decay every
keyword that is not a *substring match* of any normalized candidate skill.
Modelled from the claim's words, for comparison with `decay_step`. -/
def decay_step_claim (ns : List String) (tbl : Table) : Table :=
  tbl.map (fun p => if ns.any (fun s => pyIn p.1 s) then p else (p.1, p.2 * 0.999))

/-- The full update call as the specification describes it, identical to
`update_call` except that the decay step exempts substring-matched keywords.
Modelled from the claim's words, for comparison with `update_call`. -/
def update_call_claim (tbl : Table) (skills : List String) (fs : ℚ) (o : String) : Table :=
  if (pre_decay tbl (skills.map pyLower) (calculate_reward fs o)).2 then
    decay_step_claim (skills.map pyLower)
      (pre_decay tbl (skills.map pyLower) (calculate_reward fs o)).1
  else (pre_decay tbl (skills.map pyLower) (calculate_reward fs o)).1

/-- State of the backing weight file `data/rl_weights.json`: absent,
present but unparseable, or readable with the given parsed mapping. -/
inductive FileState
  | absent
  | unreadable
  | readable (t : Table)

/-- `_load_weights`: return the parsed table when the file is readable,
otherwise the fixed four-keyword fallback mapping. -/
def load_weights : FileState → Table
  | FileState.readable t => t
  | _ => [("python", 1), ("ai", 1), ("fastapi", 1), ("communication", 1)]

/-- The four-keyword fallback table returned by `_load_weights` when the
backing file is absent or unreadable. -/
def fallback_weights : Table :=
  [("python", 1), ("ai", 1), ("fastapi", 1), ("communication", 1)]

/-- The nineteen-keyword enhanced default table seeded by `__init__` when the
loaded table is empty. -/
def default_weights : Table :=
  [("python", 1.2), ("java", 1.1), ("javascript", 1), ("react", 1),
   ("ai", 1.3), ("machine learning", 1.3), ("ml", 1.3), ("data science", 1.2),
   ("fastapi", 1.1), ("django", 1), ("flask", 1), ("nodejs", 1),
   ("communication", 0.9), ("teamwork", 0.8), ("leadership", 0.9),
   ("sql", 1), ("database", 1), ("mongodb", 0.9), ("postgresql", 1)]

/-- Scorer construction: load the weights, and if the result is empty seed
the enhanced default table and persist it. Returns the in-memory table and
whether `_save_weights` was invoked during construction. -/
def brain_init (fs : FileState) : Table × Bool :=
  let w := load_weights fs
  if w.isEmpty then (default_weights, true) else (w, false)

/-- `_save_weights`: serialize the in-memory table to the backing file. The
JSON mapping of string keys to numbers round-trips the table verbatim. -/
def save_weights (t : Table) : FileState := FileState.readable t

/-- One `reward_log` call together with its persistence effect. The skill
entries are `Option String` (`Option.none` models a non-string value, on
which Python's `s.lower()` raises); the exception propagates out of
`policy_update` into `reward_log`, which has no handler around it. On
success, the backing file receives the new table only when a mutation
occurred and the guarded file write succeeds (`saveOk`); a failed write is
caught inside `_save_weights`, so it never produces an error, and the
in-memory table is kept regardless. Returns (in-memory table, file table). -/
def reward_log_fs (saveOk : Bool) (tbl file : Table) (skills : List (Option String))
    (fs : ℚ) (o : String) : Except Unit (Table × Table) :=
  match normListE pyLower skills with
  | Except.error e => Except.error e
  | Except.ok ns =>
    let st := policy_update_full tbl ns (calculate_reward fs o)
    Except.ok (st.1, if st.2 && saveOk then st.1 else file)

/-! ### Helper lemmas -/

lemma prefixOfB_refl : ∀ l : List Char, prefixOfB l l = true := by
  intro l
  induction l with
  | nil => rfl
  | cons a as ih => simp [prefixOfB, ih]

lemma pyIn_refl (s : String) : pyIn s s = true := by
  unfold pyIn
  cases h : s.data with
  | nil => rfl
  | cons b bs => simp [substrB, prefixOfB_refl]

lemma lookupQ_of_mem : ∀ {tbl : Table} {k : String} {w : ℚ},
    (tbl.map Prod.fst).Nodup → (k, w) ∈ tbl → lookupQ k tbl = some w := by
  intro tbl
  induction tbl with
  | nil => intro k w _ hmem; cases hmem
  | cons p t ih =>
    intro k w hnd hmem
    simp only [List.map_cons, List.nodup_cons] at hnd
    rcases List.mem_cons.mp hmem with h | h
    · rw [← h]
      simp [lookupQ]
    · have hk : p.1 ≠ k := by
        intro he
        exact hnd.1 (he ▸ List.mem_map.mpr ⟨(k, w), h, rfl⟩)
      rw [lookupQ, if_neg hk]
      exact ih hnd.2 h

lemma lookupQ_append_left : ∀ {l1 : Table} (l2 : Table) {k : String},
    k ∈ l1.map Prod.fst → lookupQ k (l1 ++ l2) = lookupQ k l1 := by
  intro l1
  induction l1 with
  | nil => intro l2 k h; simp at h
  | cons p t ih =>
    intro l2 k h
    by_cases hk : p.1 = k
    · simp [lookupQ, hk]
    · simp only [List.map_cons, List.mem_cons] at h
      rcases h with h | h
      · exact absurd h.symm hk
      · rw [List.cons_append, lookupQ, if_neg hk, lookupQ, if_neg hk]
        exact ih l2 h

lemma lookupQ_append_right : ∀ {l1 : Table} (l2 : Table) {k : String},
    k ∉ l1.map Prod.fst → lookupQ k (l1 ++ l2) = lookupQ k l2 := by
  intro l1
  induction l1 with
  | nil => intro l2 k _; rfl
  | cons p t ih =>
    intro l2 k h
    simp only [List.map_cons, List.mem_cons, not_or] at h
    have hk : p.1 ≠ k := fun hh => h.1 hh.symm
    rw [List.cons_append, lookupQ, if_neg hk]
    exact ih l2 h.2

lemma keys_update_step (r : ℚ) (ns : List String) : ∀ tbl : Table,
    (update_step r ns tbl).map Prod.fst = tbl.map Prod.fst := by
  intro tbl
  induction tbl with
  | nil => rfl
  | cons p t ih =>
    simp only [update_step, List.map_cons] at ih ⊢
    rw [ih]
    congr 1
    split <;> rfl

lemma keys_decay_step (ns : List String) : ∀ tbl : Table,
    (decay_step ns tbl).map Prod.fst = tbl.map Prod.fst := by
  intro tbl
  induction tbl with
  | nil => rfl
  | cons p t ih =>
    simp only [decay_step, List.map_cons] at ih ⊢
    rw [ih]
    congr 1
    split <;> rfl

lemma discover_loop_append (r : ℚ) : ∀ (ns : List String) (st : Table × Bool),
    ∃ ext : Table, (discover_loop r ns st).1 = st.1 ++ ext := by
  intro ns
  induction ns with
  | nil => exact fun st => ⟨[], by simp [discover_loop]⟩
  | cons s rest ih =>
    intro st
    simp only [discover_loop]
    split
    · obtain ⟨ext, hext⟩ := ih _
      exact ⟨_, by rw [hext, List.append_assoc]⟩
    · exact ih st

lemma discover_loop_flag (r : ℚ) : ∀ (ns : List String) (st : Table × Bool),
    st.2 = true → (discover_loop r ns st).2 = true := by
  intro ns
  induction ns with
  | nil => intro st h; simpa [discover_loop] using h
  | cons s rest ih =>
    intro st h
    simp only [discover_loop]
    split
    · exact ih _ rfl
    · exact ih _ h

lemma discover_loop_lookup (r : ℚ) : ∀ (ns : List String) (st : Table × Bool) (k : String),
    k ∈ st.1.map Prod.fst →
    lookupQ k (discover_loop r ns st).1 = lookupQ k st.1 := by
  intro ns
  induction ns with
  | nil => intro st k _; simp [discover_loop]
  | cons s rest ih =>
    intro st k hk
    simp only [discover_loop]
    split
    · rw [ih _ k (by simp [hk]), lookupQ_append_left _ hk]
    · exact ih st k hk

lemma discover_loop_mem (r : ℚ) (ns : List String) (st : Table × Bool)
    {p : String × ℚ} (h : p ∈ st.1) : p ∈ (discover_loop r ns st).1 := by
  obtain ⟨ext, hext⟩ := discover_loop_append r ns st
  rw [hext]
  exact List.mem_append_left _ h

lemma discover_loop_mem_cases (r : ℚ) : ∀ (ns : List String) (st : Table × Bool)
    (p : String × ℚ), p ∈ (discover_loop r ns st).1 →
    p ∈ st.1 ∨ (0.5 ≤ p.2 ∧ p.2 ≤ 3) := by
  intro ns
  induction ns with
  | nil => intro st p h; exact Or.inl (by simpa [discover_loop] using h)
  | cons s rest ih =>
    intro st p h
    simp only [discover_loop] at h
    split at h
    · rcases ih _ p h with h1 | h1
      · rcases List.mem_append.mp h1 with h2 | h2
        · exact Or.inl h2
        · right
          have he : p = (pyLower (pyStrip s), max 0.5 (min 3 (1 + 0.15 * r * 2))) := by
            simpa using h2
          rw [he]
          exact ⟨le_max_left _ _, max_le (by norm_num) (min_le_left _ _)⟩
      · exact Or.inr h1
    · exact ih st p h

lemma lookupQ_decay (ns : List String) (k : String) : ∀ tbl : Table,
    lookupQ k (decay_step ns tbl) =
      Option.map (fun w => if k ∈ ns.map pyLower then w else w * 0.999) (lookupQ k tbl) := by
  intro tbl
  induction tbl with
  | nil => rfl
  | cons p t ih =>
    by_cases hk : p.1 = k
    · subst hk
      by_cases hmem : p.1 ∈ ns.map pyLower <;>
        simp [decay_step, lookupQ, hmem]
    · by_cases hmem : p.1 ∈ ns.map pyLower <;>
        simpa [decay_step, lookupQ, hmem, hk] using ih

lemma clampW_bounds (x : ℚ) : 0.1 ≤ clampW x ∧ clampW x ≤ 5 :=
  ⟨le_max_left _ _, max_le (by norm_num) (min_le_left _ _)⟩

lemma mem_update_step_src {r : ℚ} {ns : List String} {tbl : Table} {p : String × ℚ}
    (h : p ∈ update_step r ns tbl) :
    ∃ q ∈ tbl, p.1 = q.1 ∧ (p.2 = q.2 ∨ p.2 = clampW (q.2 + 0.15 * r)) := by
  rcases List.mem_map.mp h with ⟨q, hq, hqe⟩
  refine ⟨q, hq, ?_⟩
  by_cases hc : (ns.any fun s => pyIn q.1 s) = true
  · rw [if_pos hc] at hqe
    exact ⟨(congrArg Prod.fst hqe).symm, Or.inr (congrArg Prod.snd hqe).symm⟩
  · rw [if_neg hc] at hqe
    exact ⟨(congrArg Prod.fst hqe).symm, Or.inl (congrArg Prod.snd hqe).symm⟩

lemma update_step_mem_matched {r : ℚ} {ns : List String} {tbl : Table} {k : String} {w : ℚ}
    (h : (k, w) ∈ tbl) (hm : (ns.any fun s => pyIn k s) = true) :
    (k, clampW (w + 0.15 * r)) ∈ update_step r ns tbl :=
  List.mem_map.mpr ⟨(k, w), h, by simp [hm]⟩

lemma update_step_mem_unmatched {r : ℚ} {ns : List String} {tbl : Table} {k : String} {w : ℚ}
    (h : (k, w) ∈ tbl) (hm : (ns.any fun s => pyIn k s) = false) :
    (k, w) ∈ update_step r ns tbl :=
  List.mem_map.mpr ⟨(k, w), h, by simp [hm]⟩

lemma decay_step_mem {ns : List String} {tbl : Table} {k : String} {w : ℚ}
    (h : (k, w) ∈ tbl) :
    (k, if k ∈ ns.map pyLower then w else w * 0.999) ∈ decay_step ns tbl :=
  List.mem_map.mpr ⟨(k, w), h, by by_cases hm : k ∈ ns.map pyLower <;> simp [hm]⟩

lemma update_step_id (r : ℚ) {ns : List String} : ∀ {tbl : Table},
    (∀ p ∈ tbl, (ns.any fun s => pyIn p.1 s) = false) → update_step r ns tbl = tbl := by
  intro tbl
  induction tbl with
  | nil => intro _; rfl
  | cons p t ih =>
    intro h
    have hp : (ns.any fun s => pyIn p.1 s) = false := h p (List.mem_cons_self _ _)
    have ht := ih (fun q hq => h q (List.mem_cons_of_mem _ hq))
    simp only [update_step, List.map_cons, hp, Bool.false_eq_true, if_false]
    exact congrArg (List.cons p) ht

lemma normListE_error {f : String → String} : ∀ {l : List (Option String)},
    Option.none ∈ l → normListE f l = Except.error () := by
  intro l
  induction l with
  | nil => intro h; cases h
  | cons x rest ih =>
    intro h
    cases x with
    | none => rfl
    | some s =>
      have hr : Option.none ∈ rest := by
        rcases List.mem_cons.mp h with h1 | h1
        · simp at h1
        · exact h1
      simp [normListE, ih hr]

lemma normListE_ok {f : String → String} : ∀ {l : List (Option String)},
    (∀ x ∈ l, x ≠ Option.none) → ∃ ns, normListE f l = Except.ok ns := by
  intro l
  induction l with
  | nil => intro _; exact ⟨[], rfl⟩
  | cons x rest ih =>
    intro h
    obtain ⟨ns, hns⟩ := ih (fun y hy => h y (List.mem_cons_of_mem _ hy))
    cases x with
    | none => exact absurd rfl (h _ (List.mem_cons_self _ _))
    | some s => exact ⟨f s :: ns, by simp [normListE, hns]⟩

/-! ### Concrete evaluations -/

lemma reward_hired : calculate_reward 5 "hired" = 1.2 := by
  have e : pyLower "hired" = "hired" := by decide
  rw [calculate_reward, e]
  norm_num [outcome_reward]

lemma reward_rejected : calculate_reward 1 "rejected" = -0.92 := by
  have e : pyLower "rejected" = "rejected" := by decide
  rw [calculate_reward, e]
  simp only [outcome_reward]
  simp only [String.reduceEq, or_self, or_false, false_or, if_false, reduceIte]
  norm_num

lemma eval_rust : update_call [("python", 1.2), ("rust", 0.1)] ["python"] 5 "hired"
    = [("python", 1.38), ("rust", 0.0999)] := by
  have e1 : ["python"].map pyLower = ["python"] := by decide
  have e2 : pyIn "python" "python" = true := by decide
  have e3 : pyIn "rust" "python" = false := by decide
  have e4 : collide "python" "python" = true := by decide
  have e5 : pyLower (pyStrip "python") = "python" := by decide
  have hstep : update_step 1.2 ["python"] [("python", 1.2), ("rust", 0.1)]
      = [("python", clampW (1.2 + 0.15 * 1.2)), ("rust", 0.1)] := by
    simp [update_step, e2, e3]
  have hflag : updated_flag [("python", (1.2 : ℚ)), ("rust", 0.1)] ["python"] = true := by
    simp [updated_flag, e2]
  have hpre : pre_decay [("python", 1.2), ("rust", 0.1)] ["python"] (1.2 : ℚ)
      = ([("python", clampW (1.2 + 0.15 * 1.2)), ("rust", 0.1)], true) := by
    rw [pre_decay, if_pos (by norm_num : (0.3 : ℚ) < 1.2), hstep, hflag]
    simp [discover_loop, e5, e4]
  rw [update_call, policy_update, reward_hired, e1]
  simp only [policy_update_full, hpre]
  simp [decay_step, e1]
  norm_num [clampW]

lemma eval_python : update_call [("python", 1.2)] ["python"] 5 "hired"
    = [("python", 1.38)] := by
  have e1 : ["python"].map pyLower = ["python"] := by decide
  have e2 : pyIn "python" "python" = true := by decide
  have e4 : collide "python" "python" = true := by decide
  have e5 : pyLower (pyStrip "python") = "python" := by decide
  have hstep : update_step 1.2 ["python"] [("python", 1.2)]
      = [("python", clampW (1.2 + 0.15 * 1.2))] := by
    simp [update_step, e2]
  have hflag : updated_flag [("python", (1.2 : ℚ))] ["python"] = true := by
    simp [updated_flag, e2]
  have hpre : pre_decay [("python", 1.2)] ["python"] (1.2 : ℚ)
      = ([("python", clampW (1.2 + 0.15 * 1.2))], true) := by
    rw [pre_decay, if_pos (by norm_num : (0.3 : ℚ) < 1.2), hstep, hflag]
    simp [discover_loop, e5, e4]
  rw [update_call, policy_update, reward_hired, e1]
  simp only [policy_update_full, hpre]
  simp [decay_step, e1]
  norm_num [clampW]

lemma eval_python_cap : update_call [("python", 1.2)] ["Python"] 5 "hired"
    = [("python", 1.38)] := by
  have e1 : ["Python"].map pyLower = ["python"] := by decide
  have e2 : pyIn "python" "python" = true := by decide
  have e4 : collide "python" "python" = true := by decide
  have e5 : pyLower (pyStrip "python") = "python" := by decide
  have hstep : update_step 1.2 ["python"] [("python", 1.2)]
      = [("python", clampW (1.2 + 0.15 * 1.2))] := by
    simp [update_step, e2]
  have hflag : updated_flag [("python", (1.2 : ℚ))] ["python"] = true := by
    simp [updated_flag, e2]
  have hpre : pre_decay [("python", 1.2)] ["python"] (1.2 : ℚ)
      = ([("python", clampW (1.2 + 0.15 * 1.2))], true) := by
    rw [pre_decay, if_pos (by norm_num : (0.3 : ℚ) < 1.2), hstep, hflag]
    simp [discover_loop, e5, e4]
  have e6 : ["python"].map pyLower = ["python"] := by decide
  rw [update_call, policy_update, reward_hired, e1]
  simp only [policy_update_full, hpre]
  simp [decay_step, e6]
  norm_num [clampW]

lemma eval_pydev : update_call [("python", 1.2)] ["python dev"] 5 "hired"
    = [("python", 1.37862)] := by
  have e1 : ["python dev"].map pyLower = ["python dev"] := by decide
  have e2 : pyIn "python" "python dev" = true := by decide
  have e4 : collide "python" "python dev" = true := by decide
  have e5 : pyLower (pyStrip "python dev") = "python dev" := by decide
  have hstep : update_step 1.2 ["python dev"] [("python", 1.2)]
      = [("python", clampW (1.2 + 0.15 * 1.2))] := by
    simp [update_step, e2]
  have hflag : updated_flag [("python", (1.2 : ℚ))] ["python dev"] = true := by
    simp [updated_flag, e2]
  have hpre : pre_decay [("python", 1.2)] ["python dev"] (1.2 : ℚ)
      = ([("python", clampW (1.2 + 0.15 * 1.2))], true) := by
    rw [pre_decay, if_pos (by norm_num : (0.3 : ℚ) < 1.2), hstep, hflag]
    simp [discover_loop, e5, e4]
  rw [update_call, policy_update, reward_hired, e1]
  simp only [policy_update_full, hpre]
  simp [decay_step, e1]
  norm_num [clampW]

lemma eval_pydev_claim : update_call_claim [("python", 1.2)] ["python dev"] 5 "hired"
    = [("python", 1.38)] := by
  have e1 : ["python dev"].map pyLower = ["python dev"] := by decide
  have e2 : pyIn "python" "python dev" = true := by decide
  have e4 : collide "python" "python dev" = true := by decide
  have e5 : pyLower (pyStrip "python dev") = "python dev" := by decide
  have hstep : update_step 1.2 ["python dev"] [("python", 1.2)]
      = [("python", clampW (1.2 + 0.15 * 1.2))] := by
    simp [update_step, e2]
  have hflag : updated_flag [("python", (1.2 : ℚ))] ["python dev"] = true := by
    simp [updated_flag, e2]
  have hpre : pre_decay [("python", 1.2)] ["python dev"] (1.2 : ℚ)
      = ([("python", clampW (1.2 + 0.15 * 1.2))], true) := by
    rw [pre_decay, if_pos (by norm_num : (0.3 : ℚ) < 1.2), hstep, hflag]
    simp [discover_loop, e5, e4]
  rw [update_call_claim, reward_hired, e1]
  simp only [hpre]
  simp [decay_step_claim, e1, e2]
  norm_num [clampW]

lemma eval_java : update_call [("java", 5), ("javascript", 1)] ["javascript"] 5 "hired"
    = [("java", 4.995), ("javascript", 1.18)] := by
  have e1 : ["javascript"].map pyLower = ["javascript"] := by decide
  have e2 : pyIn "java" "javascript" = true := by decide
  have e3 : pyIn "javascript" "javascript" = true := by decide
  have e4 : collide "java" "javascript" = true := by decide
  have e5 : pyLower (pyStrip "javascript") = "javascript" := by decide
  have hstep : update_step 1.2 ["javascript"] [("java", 5), ("javascript", 1)]
      = [("java", clampW (5 + 0.15 * 1.2)), ("javascript", clampW (1 + 0.15 * 1.2))] := by
    simp [update_step, e2, e3]
  have hflag : updated_flag [("java", (5 : ℚ)), ("javascript", 1)] ["javascript"] = true := by
    simp [updated_flag, e2]
  have hpre : pre_decay [("java", 5), ("javascript", 1)] ["javascript"] (1.2 : ℚ)
      = ([("java", clampW (5 + 0.15 * 1.2)), ("javascript", clampW (1 + 0.15 * 1.2))],
         true) := by
    rw [pre_decay, if_pos (by norm_num : (0.3 : ℚ) < 1.2), hstep, hflag]
    simp [discover_loop, e5, e4]
  rw [update_call, policy_update, reward_hired, e1]
  simp only [policy_update_full, hpre]
  simp [decay_step, e1]
  norm_num [clampW]

lemma eval_unknown : update_call [("python", 1.2)] ["UnknownTech"] 5 "hired"
    = [("python", 1.1988), ("unknowntech", 1.36)] := by
  have e1 : ["UnknownTech"].map pyLower = ["unknowntech"] := by decide
  have e2 : pyIn "python" "unknowntech" = false := by decide
  have e4 : collide "python" "unknowntech" = false := by decide
  have e5 : pyLower (pyStrip "unknowntech") = "unknowntech" := by decide
  have d1 : decide (("unknowntech" : String).length < 25) = true := by decide
  have d2 : decide (2 < ("unknowntech" : String).length) = true := by decide
  have hstep : update_step 1.2 ["unknowntech"] [("python", 1.2)] = [("python", 1.2)] := by
    simp [update_step, e2]
  have hflag : updated_flag [("python", (1.2 : ℚ))] ["unknowntech"] = false := by
    simp [updated_flag, e2]
  have hpre : pre_decay [("python", 1.2)] ["unknowntech"] (1.2 : ℚ)
      = ([("python", 1.2), ("unknowntech", max 0.5 (min 3 (1 + 0.15 * 1.2 * 2)))],
         true) := by
    rw [pre_decay, if_pos (by norm_num : (0.3 : ℚ) < 1.2), hstep, hflag]
    simp [discover_loop, e5, e4, d1, d2]
  have e6 : pyLower "unknowntech" = "unknowntech" := by decide
  rw [update_call, policy_update, reward_hired, e1]
  simp only [policy_update_full, hpre]
  simp [decay_step, e6]
  norm_num

lemma reward_none : calculate_reward 3 "none" = 0 := by
  have e : pyLower "none" = "none" := by decide
  rw [calculate_reward, e]
  simp only [outcome_reward]
  simp only [String.reduceEq, or_self, if_false, reduceIte]
  norm_num

lemma eval_python_neg : update_call [("python", 1.2)] ["python"] 1 "rejected"
    = [("python", 1.062)] := by
  have e1 : ["python"].map pyLower = ["python"] := by decide
  have e2 : pyIn "python" "python" = true := by decide
  have hstep : update_step (-0.92) ["python"] [("python", 1.2)]
      = [("python", clampW (1.2 + 0.15 * (-0.92)))] := by
    simp [update_step, e2]
  have hflag : updated_flag [("python", (1.2 : ℚ))] ["python"] = true := by
    simp [updated_flag, e2]
  have hpre : pre_decay [("python", 1.2)] ["python"] (-0.92 : ℚ)
      = ([("python", clampW (1.2 + 0.15 * (-0.92)))], true) := by
    rw [pre_decay, if_neg (by norm_num : ¬ ((0.3 : ℚ) < -0.92)), hstep, hflag]
  rw [update_call, policy_update, reward_rejected, e1]
  simp only [policy_update_full, hpre]
  simp [decay_step, e1]
  norm_num [clampW]

/-! ### Structural lemmas about the update pipeline -/

lemma clampW_eq_self {x : ℚ} (h1 : 0.1 ≤ x) (h2 : x ≤ 5) : clampW x = x := by
  rw [clampW, min_eq_right h2, max_eq_right h1]

lemma lookupQ_update_step {r : ℚ} {ns : List String} {tbl : Table} {k : String} {w : ℚ}
    (hnd : (tbl.map Prod.fst).Nodup) (hmem : (k, w) ∈ tbl)
    (hm : (ns.any fun s => pyIn k s) = true) :
    lookupQ k (update_step r ns tbl) = some (clampW (w + 0.15 * r)) :=
  lookupQ_of_mem (by rw [keys_update_step]; exact hnd) (update_step_mem_matched hmem hm)

lemma lookupQ_update_step_un {r : ℚ} {ns : List String} {tbl : Table} {k : String} {w : ℚ}
    (hnd : (tbl.map Prod.fst).Nodup) (hmem : (k, w) ∈ tbl)
    (hm : (ns.any fun s => pyIn k s) = false) :
    lookupQ k (update_step r ns tbl) = some w :=
  lookupQ_of_mem (by rw [keys_update_step]; exact hnd) (update_step_mem_unmatched hmem hm)

lemma pre_decay_bounds (tbl : Table) (ns : List String) (r : ℚ)
    (hb : ∀ p ∈ tbl, 0.1 ≤ p.2 ∧ p.2 ≤ 5) :
    ∀ p ∈ (pre_decay tbl ns r).1, 0.1 ≤ p.2 ∧ p.2 ≤ 5 := by
  have hstep : ∀ p ∈ update_step r ns tbl, 0.1 ≤ p.2 ∧ p.2 ≤ 5 := by
    intro p hp
    obtain ⟨q, hq, _, h2⟩ := mem_update_step_src hp
    rcases h2 with h2 | h2
    · rw [h2]; exact hb q hq
    · rw [h2]; exact clampW_bounds _
  intro p hp
  unfold pre_decay at hp
  split at hp
  · rcases discover_loop_mem_cases r ns _ p hp with h | h
    · exact hstep p h
    · exact ⟨le_trans (by norm_num) h.1, le_trans h.2 (by norm_num)⟩
  · exact hstep p hp

lemma pre_decay_flag {tbl : Table} {ns : List String} {r : ℚ}
    (h : updated_flag tbl ns = true) : (pre_decay tbl ns r).2 = true := by
  rw [pre_decay]
  split
  · exact discover_loop_flag _ _ _ h
  · exact h

lemma pre_decay_lookup {tbl : Table} {ns : List String} {r : ℚ} {k : String}
    (hk : k ∈ tbl.map Prod.fst) :
    lookupQ k (pre_decay tbl ns r).1 = lookupQ k (update_step r ns tbl) := by
  have hk1 : k ∈ (update_step r ns tbl).map Prod.fst := by
    rw [keys_update_step]; exact hk
  rw [pre_decay]
  split
  · exact discover_loop_lookup r ns (update_step r ns tbl, updated_flag tbl ns) k hk1
  · rfl

lemma keys_pre_decay (tbl : Table) (ns : List String) (r : ℚ) :
    ∃ ext : List String,
      (pre_decay tbl ns r).1.map Prod.fst = tbl.map Prod.fst ++ ext := by
  rw [pre_decay]
  split
  · obtain ⟨ext, h⟩ := discover_loop_append r ns (update_step r ns tbl, updated_flag tbl ns)
    refine ⟨ext.map Prod.fst, ?_⟩
    rw [h, List.map_append, keys_update_step]
  · exact ⟨[], by rw [List.append_nil]; exact keys_update_step r ns tbl⟩

lemma fuzzy_score_find (skill : String) (w : ℚ) : ∀ ns : List String,
    fuzzy_score skill w ns =
      match ns.find? (fun c => pyIn skill c || pyIn c skill || overlapB skill c) with
      | some c => if pyIn skill c || pyIn c skill then w * 0.8 else w * 0.6
      | none => 0 := by
  intro ns
  induction ns with
  | nil => rfl
  | cons c rest ih =>
    cases ha : pyIn skill c <;> cases hb : pyIn c skill <;> cases ho : overlapB skill c <;>
      simp [fuzzy_score, List.find?, ha, hb, ho, ih]

lemma round3_mem {x : ℝ} (h1 : 0.05 ≤ x) (h2 : x ≤ 0.95) :
    0.05 ≤ round3 x ∧ round3 x ≤ 0.95 := by
  have hl : (50 : ℤ) ≤ round (1000 * x) := by
    rw [round_eq]
    exact Int.le_floor.mpr (by push_cast; linarith)
  have hu : round (1000 * x) ≤ 950 := by
    rw [round_eq]
    have hf : ⌊(1000 : ℝ) * x + 1 / 2⌋ < 951 := Int.floor_lt.mpr (by push_cast; linarith)
    omega
  have hl2 : (50 : ℝ) ≤ ((round (1000 * x) : ℤ) : ℝ) := by exact_mod_cast hl
  have hu2 : ((round (1000 * x) : ℤ) : ℝ) ≤ 950 := by exact_mod_cast hu
  rw [round3]
  constructor <;> [linarith; linarith]

lemma length_update_step (r : ℚ) (ns : List String) (tbl : Table) :
    (update_step r ns tbl).length = tbl.length := by
  simp [update_step]

lemma discover_loop_grow_flag (r : ℚ) : ∀ (ns : List String) (st : Table × Bool),
    st.1.length < (discover_loop r ns st).1.length → (discover_loop r ns st).2 = true := by
  intro ns
  induction ns with
  | nil => intro st h; simp [discover_loop] at h
  | cons s rest ih =>
    intro st h
    simp only [discover_loop] at h ⊢
    by_cases hcond : ((st.1.all fun p => !(collide p.1 (pyLower (pyStrip s)))) &&
        decide ((pyLower (pyStrip s)).length < 25) &&
        decide (2 < (pyLower (pyStrip s)).length)) = true
    · rw [if_pos hcond]
      exact discover_loop_flag r rest _ rfl
    · rw [if_neg hcond] at h ⊢
      exact ih st h

lemma discover_loop_flag_src (r : ℚ) : ∀ (ns : List String) (st : Table × Bool),
    (discover_loop r ns st).2 = true →
    st.2 = true ∨ st.1.length < (discover_loop r ns st).1.length := by
  intro ns
  induction ns with
  | nil => intro st h; exact Or.inl (by simpa [discover_loop] using h)
  | cons s rest ih =>
    intro st h
    simp only [discover_loop] at h ⊢
    by_cases hcond : ((st.1.all fun p => !(collide p.1 (pyLower (pyStrip s)))) &&
        decide ((pyLower (pyStrip s)).length < 25) &&
        decide (2 < (pyLower (pyStrip s)).length)) = true
    · rw [if_pos hcond]
      right
      obtain ⟨ext, hext⟩ := discover_loop_append r rest
        (st.1 ++ [(pyLower (pyStrip s), max 0.5 (min 3 (1 + 0.15 * r * 2)))], true)
      rw [hext]
      simp only [List.length_append, List.length_cons, List.length_nil]
      omega
    · rw [if_neg hcond] at h ⊢
      exact ih st h

lemma pre_decay_table_ext (tbl : Table) (ns : List String) (r : ℚ) :
    ∃ ext : Table, (pre_decay tbl ns r).1 = update_step r ns tbl ++ ext := by
  rw [pre_decay]
  split
  · exact discover_loop_append r ns _
  · exact ⟨[], (List.append_nil _).symm⟩

lemma pre_decay_flag_grow {tbl : Table} {ns : List String} {r : ℚ}
    (h : tbl.length < (pre_decay tbl ns r).1.length) : (pre_decay tbl ns r).2 = true := by
  by_cases hr : (0.3 : ℚ) < r
  · rw [pre_decay, if_pos hr] at h ⊢
    apply discover_loop_grow_flag
    simpa [length_update_step] using h
  · rw [pre_decay, if_neg hr] at h
    simp [length_update_step] at h

lemma pre_decay_flag_src {tbl : Table} {ns : List String} {r : ℚ}
    (h : (pre_decay tbl ns r).2 = true) :
    updated_flag tbl ns = true ∨ tbl.length < (pre_decay tbl ns r).1.length := by
  by_cases hr : (0.3 : ℚ) < r
  · rw [pre_decay, if_pos hr] at h ⊢
    rcases discover_loop_flag_src r ns _ h with h1 | h1
    · exact Or.inl h1
    · right
      calc tbl.length = (update_step r ns tbl).length := (length_update_step r ns tbl).symm
        _ < _ := h1
  · rw [pre_decay, if_neg hr] at h
    exact Or.inl h

lemma keys_update_call (tbl : Table) (skills : List String) (fs : ℚ) (o : String) :
    (update_call tbl skills fs o).map Prod.fst
      = (pre_decay tbl (skills.map pyLower) (calculate_reward fs o)).1.map Prod.fst := by
  simp only [update_call, policy_update, policy_update_full]
  split
  · rw [keys_decay_step]
  · rfl

lemma eval_py_predecay :
    pre_decay [("python", 1.2)] (["py"].map pyLower) (calculate_reward 5 "hired")
      = ([("python", 1.2)], false) := by
  have e1 : ["py"].map pyLower = ["py"] := by decide
  have e2 : pyIn "python" "py" = false := by decide
  have e5 : pyLower (pyStrip "py") = "py" := by decide
  have d2 : decide (2 < ("py" : String).length) = false := by decide
  have hstep : update_step 1.2 ["py"] [("python", 1.2)] = [("python", 1.2)] := by
    simp [update_step, e2]
  have hflag : updated_flag [("python", (1.2 : ℚ))] ["py"] = false := by
    simp [updated_flag, e2]
  rw [reward_hired, e1, pre_decay, if_pos (by norm_num : (0.3 : ℚ) < 1.2), hstep, hflag]
  simp only [discover_loop, e5, d2]
  simp

/-! ### Claim theorems -/

/-- C1 counterexample: starting from the table
{python: 1.2, rust: 0.1}, whose weights all lie in [0.1, 5.0], the call
`update(["python"], 5.0, "hired")` decays the unmatched keyword "rust"
(multiplying by 0.999 with no re-clamping) to 0.0999, which lies outside
[0.1, 5.0]; so the claimed invariant fails. -/
theorem policy_bounds_cex :
    (∀ p ∈ ([("python", 1.2), ("rust", 0.1)] : Table), 0.1 ≤ p.2 ∧ p.2 ≤ 5) ∧
    ¬ (∀ p ∈ update_call [("python", 1.2), ("rust", 0.1)] ["python"] 5 "hired",
        0.1 ≤ p.2 ∧ p.2 ≤ 5) := by
  constructor
  · intro p hp
    simp only [List.mem_cons, List.not_mem_nil, or_false] at hp
    rcases hp with rfl | rfl <;> norm_num
  · intro hall
    have h := (hall ("rust", 0.0999) (by rw [eval_rust]; simp)).1
    norm_num at h

/-- C1 (amended): after any update call on a table whose weights all lie in
[0.1, 5.0], every weight lies in [0.0999, 5.0]: weights touched by the
matched-keyword update or inserted by discovery stay within [0.1, 5.0], but
the decay step multiplies by 0.999 without re-clamping, so a weight may end
one decay factor below 0.1. -/
theorem policy_bounds_amended (tbl : Table) (skills : List String) (fs : ℚ) (o : String)
    (hb : ∀ p ∈ tbl, 0.1 ≤ p.2 ∧ p.2 ≤ 5) :
    ∀ p ∈ update_call tbl skills fs o, 0.0999 ≤ p.2 ∧ p.2 ≤ 5 := by
  intro p hp
  have hpre := pre_decay_bounds tbl (skills.map pyLower) (calculate_reward fs o) hb
  simp only [update_call, policy_update, policy_update_full] at hp
  split at hp
  · rcases List.mem_map.mp hp with ⟨q, hq, hqe⟩
    have hqb := hpre q hq
    by_cases hm : q.1 ∈ ((skills.map pyLower).map pyLower)
    · rw [if_pos hm] at hqe
      rw [← hqe]
      exact ⟨le_trans (by norm_num) hqb.1, hqb.2⟩
    · rw [if_neg hm] at hqe
      rw [← hqe]
      constructor
      · show (0.0999 : ℚ) ≤ q.2 * 0.999
        linarith [hqb.1]
      · show q.2 * 0.999 ≤ 5
        linarith [hqb.2, hqb.1]
  · have h := hpre p hp
    exact ⟨le_trans (by norm_num) h.1, h.2⟩

/-- C1 witness: the amended bound theorem applied to the concrete call
`update(["python"], 5.0, "hired")` on {python: 1.2}, whose result maps
"python" to 1.38. -/
theorem policy_bounds_amended_witness :
    (0.0999 : ℚ) ≤ 1.38 ∧ (1.38 : ℚ) ≤ 5 := by
  have h := policy_bounds_amended [("python", 1.2)] ["python"] 5 "hired"
    (by intro p hp; simp only [List.mem_cons, List.not_mem_nil, or_false] at hp
        rw [hp]; norm_num)
    ("python", 1.38) (by rw [eval_python]; simp)
  exact h

/-- C2: for every weight table and every candidate input (missing skills
field, empty skills, or a list containing a non-string entry), the
prediction is a multiple of 1/1000 lying in [0.05, 0.95], and any input
whose normalization fails yields the fallback 0.2. -/
theorem predict_bounds (tbl : Table) (cd : Option (List (Option String))) :
    (0.05 ≤ predict_success tbl cd ∧ predict_success tbl cd ≤ 0.95) ∧
    (∃ n : ℤ, predict_success tbl cd = (n : ℝ) / 1000) ∧
    (Option.none ∈ cd.getD [] → predict_success tbl cd = 0.2) := by
  rcases hcd : cd.getD [] with _ | ⟨s, rest⟩
  · rw [predict_success, hcd]
    refine ⟨by norm_num, ⟨200, by norm_num⟩, fun _ => rfl⟩
  · cases hne : normListE (fun t => pyStrip (pyLower t)) (s :: rest) with
    | error e =>
      simp only [predict_success, hcd, hne]
      refine ⟨by norm_num, ⟨200, by norm_num⟩, by simp⟩
    | ok ns =>
      simp only [predict_success, hcd, hne]
      refine ⟨?_, ⟨_, rfl⟩, ?_⟩
      · exact round3_mem (le_max_left _ _) (max_le (by norm_num) (min_le_left _ _))
      · intro hnone
        have hcontra := hne
        rw [normListE_error hnone] at hcontra
        cases hcontra

/-- C2 witness: a candidate whose skills list holds a non-string entry takes
the fallback branch with value 0.2, which satisfies the bounds. -/
theorem predict_bounds_witness :
    predict_success [] (Option.some [Option.none]) = 0.2 ∧
    0.05 ≤ predict_success [] (Option.some [Option.none]) := by
  have h := predict_bounds [] (Option.some [Option.none])
  exact ⟨h.2.2 (by simp), h.1.1⟩

/-- C3 counterexample: for the keyword "machine learning" (weight 1) and
candidate skills ["learning theory", "machine learning experience"], the
second skill is a substring match, there is no exact match, yet the code
scores 0.6 (word overlap with the *earlier* skill), not the 0.8 the claimed
tier-major evaluation order would give. -/
theorem match_tier_cex :
    pyIn "machine learning" "machine learning experience" = true ∧
    "machine learning" ∉ (["learning theory", "machine learning experience"] : List String) ∧
    keyword_score "machine learning" 1 ["learning theory", "machine learning experience"]
      = 0.6 ∧
    (0.6 : ℚ) ≠ 1 * 0.8 := by
  refine ⟨by decide, by decide, ?_, by norm_num⟩
  have h1 : pyIn "machine learning" "learning theory" = false := by decide
  have h2 : pyIn "learning theory" "machine learning" = false := by decide
  have h3 : overlapB "machine learning" "learning theory" = true := by decide
  have hmem : "machine learning" ∉
      (["learning theory", "machine learning experience"] : List String) := by decide
  rw [keyword_score, if_neg hmem, fuzzy_score, if_neg (by simp [h1, h2]), if_pos h3]
  norm_num

/-- C3 (amended): in predict, the exact tier is checked against the whole
skill list first; otherwise the keyword's score is decided by the *first
candidate skill in sequence order* that either substring-matches or
word-overlap-matches it — weight*0.8 if that skill substring-matches, else
weight*0.6 — so an earlier overlap-only skill preempts a later substring
match. -/
theorem match_tier_amended (skill : String) (w : ℚ) (ns : List String) :
    keyword_score skill w ns =
      if skill ∈ ns then w
      else
        match ns.find? (fun c => pyIn skill c || pyIn c skill || overlapB skill c) with
        | some c => if pyIn skill c || pyIn c skill then w * 0.8 else w * 0.6
        | none => 0 := by
  rw [keyword_score]
  split
  · rfl
  · exact fuzzy_score_find skill w ns

/-- C4: the reward equals the clamped weighted combination of the normalized
feedback score and the case-insensitively matched outcome reward; in the
weight-update step every keyword that is a substring of some lowercased
candidate skill maps, exactly once, to clamp(weight + 0.15*reward, 0.1, 5);
and concretely `update(["Python"], 5.0, "hired")` on {python: 1.2} yields
reward 1.2 and final weight 1.38. -/
theorem reward_update_exact :
    (∀ (fs : ℚ) (o : String), calculate_reward fs o
        = max (-2) (min 2 (0.6 * ((fs - 3) / 2) + 0.4 * outcome_reward (pyLower o)))) ∧
    (∀ fs : ℚ, calculate_reward fs "HIRED" = calculate_reward fs "hired") ∧
    (∀ (r : ℚ) (ns : List String) (tbl : Table) (k : String) (w : ℚ),
        (tbl.map Prod.fst).Nodup → (k, w) ∈ tbl → (ns.any fun s => pyIn k s) = true →
        lookupQ k (update_step r ns tbl) = some (clampW (w + 0.15 * r))) ∧
    (calculate_reward 5 "hired" = 1.2 ∧
      update_call [("python", 1.2)] ["Python"] 5 "hired" = [("python", 1.38)]) := by
  refine ⟨?_, ?_, ?_, reward_hired, eval_python_cap⟩
  · intro fs o
    rw [calculate_reward]
    ring_nf
  · intro fs
    have h : pyLower "HIRED" = pyLower "hired" := by decide
    rw [calculate_reward, calculate_reward, h]
  · intro r ns tbl k w hnd hmem hm
    exact lookupQ_update_step hnd hmem hm

/-- C4 witness: the general matched-keyword update rule applied to the
one-entry table {python: 1.2} with reward 1.2. -/
theorem reward_update_exact_witness :
    lookupQ "python" (update_step 1.2 ["python"] [("python", 1.2)])
      = some (clampW (1.2 + 0.15 * 1.2)) :=
  reward_update_exact.2.2.1 1.2 ["python"] [("python", 1.2)] "python" 1.2
    (by decide) (by simp) (by decide)

/-- C5: an update call whose computed reward is at most 0.3 leaves the key
set unchanged; and a call with reward above 0.3 on a single skill whose
cleaned form has length strictly between 2 and 25 and collides with no
existing keyword (no substring either way, length difference at least 3)
appends exactly that one keyword, with initial weight
clamp(1 + 2*0.15*reward, 0.5, 3). -/
theorem skill_discovery_gate :
    (∀ (tbl : Table) (skills : List String) (fs : ℚ) (o : String),
        calculate_reward fs o ≤ 0.3 →
        (update_call tbl skills fs o).map Prod.fst = tbl.map Prod.fst) ∧
    (∀ (tbl : Table) (x : String) (fs : ℚ) (o : String) (c : String),
        c = pyLower (pyStrip (pyLower x)) →
        pyStrip (pyLower x) = pyLower x →
        0.3 < calculate_reward fs o →
        2 < c.length → c.length < 25 →
        (∀ p ∈ tbl, collide p.1 c = false) →
        (update_call tbl [x] fs o).map Prod.fst = tbl.map Prod.fst ++ [c] ∧
        lookupQ c (update_call tbl [x] fs o)
          = some (max 0.5 (min 3 (1 + 0.15 * calculate_reward fs o * 2)))) := by
  constructor
  · intro tbl skills fs o hr
    have hnp : ¬ (0.3 < calculate_reward fs o) := not_lt.mpr hr
    simp only [update_call, policy_update, policy_update_full, pre_decay, if_neg hnp]
    split
    · rw [keys_decay_step, keys_update_step]
    · rw [keys_update_step]
  · intro tbl x fs o c hc hstrip hr h2 h25 hcol
    have hall : ((update_step (calculate_reward fs o) [pyLower x] tbl).all
        (fun p => !(collide p.1 c))) = true := by
      rw [List.all_eq_true]
      intro p hp
      obtain ⟨q, hq, hfst, _⟩ := mem_update_step_src hp
      rw [hfst]
      simp [hcol q hq]
    have hnotmem : c ∉ tbl.map Prod.fst := by
      intro hmem
      rcases List.mem_map.mp hmem with ⟨q, hq, hfst⟩
      have := hcol q hq
      rw [hfst] at this
      rw [collide, pyIn_refl] at this
      simp at this
    have hdisc : discover_loop (calculate_reward fs o) [pyLower x]
        (update_step (calculate_reward fs o) [pyLower x] tbl, updated_flag tbl [pyLower x])
        = (update_step (calculate_reward fs o) [pyLower x] tbl
            ++ [(c, max 0.5 (min 3 (1 + 0.15 * calculate_reward fs o * 2)))], true) := by
      simp only [discover_loop]
      rw [← hc, hall, decide_eq_true h25, decide_eq_true h2]
      simp
    have hpre : pre_decay tbl [pyLower x] (calculate_reward fs o)
        = (update_step (calculate_reward fs o) [pyLower x] tbl
            ++ [(c, max 0.5 (min 3 (1 + 0.15 * calculate_reward fs o * 2)))], true) := by
      rw [pre_decay, if_pos hr, hdisc]
    have hfinal : update_call tbl [x] fs o
        = decay_step [pyLower x]
            (update_step (calculate_reward fs o) [pyLower x] tbl
              ++ [(c, max 0.5 (min 3 (1 + 0.15 * calculate_reward fs o * 2)))]) := by
      simp only [update_call, policy_update, List.map_cons, List.map_nil,
        policy_update_full, hpre, if_true]
    have hce : c = pyLower (pyLower x) := by rw [hc, hstrip]
    constructor
    · rw [hfinal, keys_decay_step, List.map_append, keys_update_step]
      rfl
    · rw [hfinal, lookupQ_decay,
        lookupQ_append_right _ (by rw [keys_update_step]; exact hnotmem)]
      simp [lookupQ, List.map_cons, hce]

/-- C5 witness: reward 0 (feedback 3, unknown outcome) adds nothing; the
concrete call `update(["UnknownTech"], 5.0, "hired")` on {python: 1.2} adds
exactly the keyword "unknowntech" with weight clamp(1 + 0.3*1.2, 0.5, 3). -/
theorem skill_discovery_gate_witness :
    (update_call [("python", 1.2)] ["java"] 3 "none").map Prod.fst
      = ([("python", (1.2 : ℚ))] : Table).map Prod.fst ∧
    (update_call [("python", 1.2)] ["UnknownTech"] 5 "hired").map Prod.fst
      = ([("python", (1.2 : ℚ))] : Table).map Prod.fst ++ ["unknowntech"] ∧
    lookupQ "unknowntech" (update_call [("python", 1.2)] ["UnknownTech"] 5 "hired")
      = some (max 0.5 (min 3 (1 + 0.15 * calculate_reward 5 "hired" * 2))) := by
  have hcol : ∀ p ∈ ([("python", (1.2 : ℚ))] : Table), collide p.1 "unknowntech" = false := by
    intro p hp
    simp only [List.mem_cons, List.not_mem_nil, or_false] at hp
    rw [hp]
    decide
  have h := skill_discovery_gate.2 [("python", 1.2)] "UnknownTech" 5 "hired" "unknowntech"
    (by decide) (by decide) (by rw [reward_hired]; norm_num) (by decide) (by decide) hcol
  exact ⟨skill_discovery_gate.1 [("python", 1.2)] ["java"] 3 "none"
    (by rw [reward_none]; norm_num), h.1, h.2⟩

/-- C6 counterexample: with table {python: 1.2} and skill "python dev", the
keyword "python" is a substring match (so the claim exempts it from decay,
as `update_call_claim` does, yielding 1.38), yet the code decays it because
it is not *exactly equal* to the skill, yielding 1.38 * 0.999 = 1.37862. -/
theorem decay_condition_cex :
    pyIn "python" "python dev" = true ∧
    update_call [("python", 1.2)] ["python dev"] 5 "hired" = [("python", 1.37862)] ∧
    update_call_claim [("python", 1.2)] ["python dev"] 5 "hired" = [("python", 1.38)] ∧
    (1.37862 : ℚ) ≠ 1.38 :=
  ⟨by decide, eval_pydev, eval_pydev_claim, by norm_num⟩

/-- C6 (amended): if and only if any weight update or keyword insertion
occurs, every keyword not *exactly equal* to one of the lowercased candidate
skills is multiplied by 0.999 — including keywords that were
substring-matched and updated in the same call. Part 1: a matched non-exact
keyword is updated and then decayed. Part 2: an unmatched non-exact keyword
is decayed whenever a mutation occurred — some keyword substring-matched
*or* the key set changed (which, keys being append-only, means discovery
inserted something). Part 3 (the only-if direction): when no keyword
matched and discovery appended nothing — whatever the reward — the table is
returned unchanged, so no decay happens. Part 4: no keyword is ever removed
(the key list is only ever extended). -/
theorem decay_condition_amended :
    (∀ (tbl : Table) (skills : List String) (fs : ℚ) (o : String) (k : String) (w : ℚ),
        (tbl.map Prod.fst).Nodup → (k, w) ∈ tbl →
        ((skills.map pyLower).any fun s => pyIn k s) = true →
        k ∉ (skills.map pyLower).map pyLower →
        lookupQ k (update_call tbl skills fs o)
          = some (clampW (w + 0.15 * calculate_reward fs o) * 0.999)) ∧
    (∀ (tbl : Table) (skills : List String) (fs : ℚ) (o : String) (k : String) (w : ℚ),
        (tbl.map Prod.fst).Nodup → (k, w) ∈ tbl →
        ((skills.map pyLower).any fun s => pyIn k s) = false →
        k ∉ (skills.map pyLower).map pyLower →
        (updated_flag tbl (skills.map pyLower) = true ∨
          (update_call tbl skills fs o).map Prod.fst ≠ tbl.map Prod.fst) →
        lookupQ k (update_call tbl skills fs o) = some (w * 0.999)) ∧
    (∀ (tbl : Table) (skills : List String) (fs : ℚ) (o : String),
        updated_flag tbl (skills.map pyLower) = false →
        (pre_decay tbl (skills.map pyLower) (calculate_reward fs o)).1.length
          = tbl.length →
        update_call tbl skills fs o = tbl) ∧
    (∀ (tbl : Table) (skills : List String) (fs : ℚ) (o : String),
        ∃ ext : List String,
          (update_call tbl skills fs o).map Prod.fst = tbl.map Prod.fst ++ ext) := by
  refine ⟨?_, ?_, ?_, ?_⟩
  · intro tbl skills fs o k w hnd hmem hm hex
    have hflag : updated_flag tbl (skills.map pyLower) = true :=
      List.any_eq_true.mpr ⟨(k, w), hmem, hm⟩
    have hk : k ∈ tbl.map Prod.fst := List.mem_map.mpr ⟨(k, w), hmem, rfl⟩
    simp only [update_call, policy_update, policy_update_full,
      if_pos (pre_decay_flag hflag)]
    rw [lookupQ_decay, pre_decay_lookup hk, lookupQ_update_step hnd hmem hm,
      Option.map_some', if_neg hex]
  · intro tbl skills fs o k w hnd hmem hm hex hmut
    have hflag2 : (pre_decay tbl (skills.map pyLower) (calculate_reward fs o)).2 = true := by
      rcases hmut with hflag | hkeys
      · exact pre_decay_flag hflag
      · apply pre_decay_flag_grow
        obtain ⟨ext, hext⟩ :=
          pre_decay_table_ext tbl (skills.map pyLower) (calculate_reward fs o)
        rw [keys_update_call, hext, List.map_append, keys_update_step] at hkeys
        have hne : ext ≠ [] := by
          intro hnil
          rw [hnil] at hkeys
          simp at hkeys
        rw [hext, List.length_append, length_update_step]
        have hpos := List.length_pos.mpr hne
        omega
    have hk : k ∈ tbl.map Prod.fst := List.mem_map.mpr ⟨(k, w), hmem, rfl⟩
    simp only [update_call, policy_update, policy_update_full, if_pos hflag2]
    rw [lookupQ_decay, pre_decay_lookup hk, lookupQ_update_step_un hnd hmem hm,
      Option.map_some', if_neg hex]
  · intro tbl skills fs o hflag hlen
    have hall : ∀ p ∈ tbl, ((skills.map pyLower).any fun s => pyIn p.1 s) = false := by
      intro p hp
      by_contra hc
      rw [Bool.not_eq_false] at hc
      rw [updated_flag, List.any_eq_true.mpr ⟨p, hp, hc⟩] at hflag
      cases hflag
    have hustep := update_step_id (calculate_reward fs o) hall
    obtain ⟨ext, hext⟩ :=
      pre_decay_table_ext tbl (skills.map pyLower) (calculate_reward fs o)
    have hextnil : ext = [] := by
      have h1 := congrArg List.length hext
      rw [hlen, List.length_append, length_update_step] at h1
      exact List.length_eq_zero.mp (by omega)
    have hpre1 : (pre_decay tbl (skills.map pyLower) (calculate_reward fs o)).1 = tbl := by
      rw [hext, hextnil, List.append_nil, hustep]
    have hpre2 : (pre_decay tbl (skills.map pyLower) (calculate_reward fs o)).2 = false := by
      by_contra hc
      rw [Bool.not_eq_false] at hc
      rcases pre_decay_flag_src hc with h1 | h1
      · rw [h1] at hflag; cases hflag
      · rw [hlen] at h1; omega
    simp only [update_call, policy_update, policy_update_full, hpre2,
      Bool.false_eq_true, if_false]
    exact hpre1
  · intro tbl skills fs o
    obtain ⟨ext, hext⟩ :=
      keys_pre_decay tbl (skills.map pyLower) (calculate_reward fs o)
    simp only [update_call, policy_update, policy_update_full]
    split
    · exact ⟨ext, by rw [keys_decay_step]; exact hext⟩
    · exact ⟨ext, hext⟩

/-- C6 witness: on {python: 1.2}, `update(["python dev"], 5, "hired")` updates
and then decays "python"; on {python: 1.2, rust: 4} the unmatched "rust" is
decayed to 4 * 0.999 because "python" matched; on {python: 1.2},
`update(["UnknownTech"], 5, "hired")` matches nothing but inserts
"unknowntech", and that insertion alone decays "python" to 1.2 * 0.999;
`update(["zzz"], 3, "none")` (reward 0, nothing matched or inserted) and
`update(["py"], 5, "hired")` (reward 1.2 but "py" is too short to insert)
both leave the table unchanged. -/
theorem decay_condition_amended_witness :
    lookupQ "python" (update_call [("python", 1.2)] ["python dev"] 5 "hired")
      = some (clampW (1.2 + 0.15 * calculate_reward 5 "hired") * 0.999) ∧
    lookupQ "rust" (update_call [("python", 1.2), ("rust", 4)] ["python dev"] 5 "hired")
      = some (4 * 0.999) ∧
    lookupQ "python" (update_call [("python", 1.2)] ["UnknownTech"] 5 "hired")
      = some (1.2 * 0.999) ∧
    update_call [("python", 1.2)] ["zzz"] 3 "none" = [("python", 1.2)] ∧
    update_call [("python", 1.2)] ["py"] 5 "hired" = [("python", 1.2)] := by
  refine ⟨?_, ?_, ?_, ?_, ?_⟩
  · exact decay_condition_amended.1 [("python", 1.2)] ["python dev"] 5 "hired" "python" 1.2
      (by decide) (by simp) (by decide) (by decide)
  · exact decay_condition_amended.2.1 [("python", 1.2), ("rust", 4)] ["python dev"] 5 "hired"
      "rust" 4 (by decide) (by simp) (by decide) (by decide) (Or.inl (by decide))
  · exact decay_condition_amended.2.1 [("python", 1.2)] ["UnknownTech"] 5 "hired"
      "python" 1.2 (by decide) (by simp) (by decide) (by decide)
      (Or.inr (by rw [eval_unknown]; simp))
  · exact decay_condition_amended.2.2.1 [("python", 1.2)] ["zzz"] 3 "none"
      (by decide)
      (by rw [reward_none, pre_decay, if_neg (by norm_num : ¬ ((0.3 : ℚ) < 0))]
          simp [length_update_step])
  · exact decay_condition_amended.2.2.1 [("python", 1.2)] ["py"] 5 "hired"
      (by decide) (by rw [eval_py_predecay])

/-- C7 counterexample: with "java" at the cap 5.0 and skill "javascript"
(whose keyword is itself in the table), the hired/5.0 update leaves "java"
clamped at 5 and then decays it to 4.995 < 5, violating new_weight ≥
old_weight for a matched keyword. -/
theorem monotone_reward_cex :
    ("java", (5 : ℚ)) ∈ ([("java", 5), ("javascript", 1)] : Table) ∧
    (((["javascript"] : List String).map pyLower).any fun s => pyIn "java" s) = true ∧
    lookupQ "java" (update_call [("java", 5), ("javascript", 1)] ["javascript"] 5 "hired")
      = some 4.995 ∧
    ¬ ((5 : ℚ) ≤ 4.995) := by
  refine ⟨by simp, by decide, ?_, by norm_num⟩
  rw [eval_java]
  simp [lookupQ]

/-- C7 (amended): for a matched keyword with old weight w, the
(feedback 5.0, "hired") update yields a new weight ≥ w provided
w + 0.15 * reward stays at most 5 (so the upper clamp does not engage);
the (feedback 1.0, "rejected") update always yields a new weight ≤ w. -/
theorem monotone_reward_amended :
    (∀ (tbl : Table) (skills : List String) (k : String) (w : ℚ),
        (k, w) ∈ tbl → ((skills.map pyLower).any fun s => pyIn k s) = true →
        0.1 ≤ w → w + 0.15 * calculate_reward 5 "hired" ≤ 5 →
        ∃ v, (k, v) ∈ update_call tbl skills 5 "hired" ∧ w ≤ v) ∧
    (∀ (tbl : Table) (skills : List String) (k : String) (w : ℚ),
        (k, w) ∈ tbl → ((skills.map pyLower).any fun s => pyIn k s) = true →
        0.1 ≤ w →
        ∃ v, (k, v) ∈ update_call tbl skills 1 "rejected" ∧ v ≤ w) := by
  constructor
  · intro tbl skills k w hmem hm hw1 hw2
    rw [reward_hired] at hw2
    have hclamp : clampW (w + 0.15 * (1.2 : ℚ)) = w + 0.15 * 1.2 :=
      clampW_eq_self (by linarith) hw2
    have hpre : (k, clampW (w + 0.15 * (1.2 : ℚ)))
        ∈ (pre_decay tbl (skills.map pyLower) 1.2).1 := by
      rw [pre_decay]
      split
      · exact discover_loop_mem _ _ _ (update_step_mem_matched hmem hm)
      · exact update_step_mem_matched hmem hm
    simp only [update_call, policy_update, reward_hired, policy_update_full]
    split
    · refine ⟨_, decay_step_mem hpre, ?_⟩
      rw [hclamp]
      split
      · linarith
      · show w ≤ (w + 0.15 * 1.2) * 0.999
        linarith
    · exact ⟨_, hpre, by rw [hclamp]; linarith⟩
  · intro tbl skills k w hmem hm hw1
    have hclamp : clampW (w + 0.15 * (-0.92 : ℚ)) ≤ w := by
      rw [clampW]
      exact max_le (by linarith) (le_trans (min_le_right _ _) (by linarith))
    have hclamp1 : 0.1 ≤ clampW (w + 0.15 * (-0.92 : ℚ)) := (clampW_bounds _).1
    have hpre : (k, clampW (w + 0.15 * (-0.92 : ℚ)))
        ∈ (pre_decay tbl (skills.map pyLower) (-0.92)).1 := by
      rw [pre_decay]
      split
      · exact discover_loop_mem _ _ _ (update_step_mem_matched hmem hm)
      · exact update_step_mem_matched hmem hm
    simp only [update_call, policy_update, reward_rejected, policy_update_full]
    split
    · refine ⟨_, decay_step_mem hpre, ?_⟩
      split
      · exact hclamp
      · show clampW (w + 0.15 * (-0.92 : ℚ)) * 0.999 ≤ w
        nlinarith
    · exact ⟨_, hpre, hclamp⟩

/-- C7 witness: on {python: 1.2}, the positive update moves "python" up to
1.38 and the negative update moves it down to 1.062. -/
theorem monotone_reward_amended_witness :
    ((1.2 : ℚ) ≤ 1.38 ∧
      lookupQ "python" (update_call [("python", 1.2)] ["python"] 5 "hired") = some 1.38) ∧
    ((1.062 : ℚ) ≤ 1.2 ∧
      lookupQ "python" (update_call [("python", 1.2)] ["python"] 1 "rejected")
        = some 1.062) := by
  constructor
  · constructor
    · obtain ⟨v, hv, hle⟩ := monotone_reward_amended.1 [("python", 1.2)] ["python"]
        "python" 1.2 (by simp) (by decide) (by norm_num)
        (by rw [reward_hired]; norm_num)
      rw [eval_python] at hv
      simp only [List.mem_cons, List.not_mem_nil, or_false, Prod.mk.injEq] at hv
      rw [← hv.2]
      exact hle
    · rw [eval_python]; simp [lookupQ]
  · constructor
    · obtain ⟨v, hv, hle⟩ := monotone_reward_amended.2 [("python", 1.2)] ["python"]
        "python" 1.2 (by simp) (by decide) (by norm_num)
      rw [eval_python_neg] at hv
      simp only [List.mem_cons, List.not_mem_nil, or_false, Prod.mk.injEq] at hv
      rw [← hv.2]
      exact hle
    · rw [eval_python_neg]; simp [lookupQ]

/-- C8 counterexample: when the backing file is absent, construction returns
the four-keyword fallback of `_load_weights` — not the documented
nineteen-keyword bootstrap table — and does not persist anything. -/
theorem bootstrap_cex :
    (brain_init FileState.absent).1 ≠ default_weights ∧
    (brain_init FileState.absent).2 = false := by
  constructor
  · intro h
    rw [show brain_init FileState.absent = (fallback_weights, false) from rfl] at h
    simp only [fallback_weights, default_weights] at h
    simp at h
  · rfl

/-- C8 (amended): an absent or unreadable backing file yields the four-entry
fallback table {python, ai, fastapi, communication ↦ 1.0} with no persist;
the nineteen-entry enhanced table is seeded and persisted exactly when the
loaded table is empty; a readable non-empty file is used verbatim. -/
theorem bootstrap_amended :
    brain_init FileState.absent = (fallback_weights, false) ∧
    brain_init FileState.unreadable = (fallback_weights, false) ∧
    brain_init (FileState.readable []) = (default_weights, true) ∧
    ∀ t : Table, t ≠ [] → brain_init (FileState.readable t) = (t, false) := by
  refine ⟨rfl, rfl, rfl, ?_⟩
  intro t ht
  cases t with
  | nil => exact absurd rfl ht
  | cons p l => rfl

/-- C8 witness: a readable one-entry file is loaded verbatim without
reseeding. -/
theorem bootstrap_amended_witness :
    brain_init (FileState.readable [("python", 1.0)]) = ([("python", 1.0)], false) :=
  bootstrap_amended.2.2.2 _ (by simp)

/-- C9 counterexample: a skills list holding a non-string entry makes
`policy_update` raise, and `reward_log` has no handler around it, so the
error reaches the caller — the update does signal an error. -/
theorem update_error_cex :
    reward_log_fs true [("python", 1.2)] [("python", 1.2)] [Option.none] 5 "hired"
      = Except.error () := rfl

/-- C9 (amended): exceptions raised while computing the policy update (a
non-string skill) propagate to `reward_log`'s caller; for well-formed skill
lists no error is signaled; the in-memory table is the same whether or not
the guarded backing-file write succeeds, and a failed write leaves the
backing file unchanged. -/
theorem update_error_amended :
    (∀ (saveOk : Bool) (tbl file : Table) (skills : List (Option String))
        (fs : ℚ) (o : String),
        (∀ x ∈ skills, x ≠ Option.none) →
        ∃ res, reward_log_fs saveOk tbl file skills fs o = Except.ok res) ∧
    (∀ (tbl file : Table) (skills : List (Option String)) (fs : ℚ) (o : String)
        (ns : List String), normListE pyLower skills = Except.ok ns →
        reward_log_fs false tbl file skills fs o
          = Except.ok ((policy_update_full tbl ns (calculate_reward fs o)).1, file) ∧
        reward_log_fs true tbl file skills fs o
          = Except.ok ((policy_update_full tbl ns (calculate_reward fs o)).1,
              if (policy_update_full tbl ns (calculate_reward fs o)).2 = true
              then (policy_update_full tbl ns (calculate_reward fs o)).1 else file)) := by
  constructor
  · intro saveOk tbl file skills fs o h
    obtain ⟨ns, hns⟩ := normListE_ok (f := pyLower) h
    refine ⟨((policy_update_full tbl ns (calculate_reward fs o)).1,
      if ((policy_update_full tbl ns (calculate_reward fs o)).2 && saveOk) = true
      then (policy_update_full tbl ns (calculate_reward fs o)).1 else file), ?_⟩
    simp only [reward_log_fs, hns]
  · intro tbl file skills fs o ns hns
    constructor <;> simp [reward_log_fs, hns]

/-- C9 witness: a well-formed skill list produces no error, and with the
write failing the in-memory update still happens while the file keeps its
old contents. -/
theorem update_error_amended_witness :
    reward_log_fs true [("python", 1.2)] [("python", 1.2)] [Option.some "Python"] 5 "hired"
      ≠ Except.error () ∧
    reward_log_fs false [("python", 1.2)] [("python", 1.2)] [Option.some "Python"] 5 "hired"
      = Except.ok
          ((policy_update_full [("python", 1.2)] ["python"] (calculate_reward 5 "hired")).1,
            [("python", 1.2)]) := by
  constructor
  · obtain ⟨res, hres⟩ := update_error_amended.1 true [("python", 1.2)] [("python", 1.2)]
      [Option.some "Python"] 5 "hired" (by simp)
    rw [hres]
    simp
  · exact (update_error_amended.2 [("python", 1.2)] [("python", 1.2)]
      [Option.some "Python"] 5 "hired" ["python"] (by rfl)).1

/-- C10 counterexample: serializing the *empty* table and reloading it into
a fresh scorer does not reproduce the empty mapping — construction reseeds
the nineteen-entry default table. -/
theorem roundtrip_cex :
    (brain_init (save_weights [])).1 = default_weights ∧
    default_weights ≠ ([] : Table) := by
  exact ⟨rfl, by simp [default_weights]⟩

/-- C10 (amended): for every non-empty weight table, serializing to the
backing file and constructing a fresh scorer from it reproduces exactly the
same mapping. -/
theorem roundtrip_amended : ∀ t : Table, t ≠ [] → (brain_init (save_weights t)).1 = t := by
  intro t ht
  cases t with
  | nil => exact absurd rfl ht
  | cons p l => rfl

/-- C10 witness: the round trip reproduces a concrete two-entry table. -/
theorem roundtrip_amended_witness :
    (brain_init (save_weights [("python", 2.5), ("ml", 0.7)])).1
      = [("python", 2.5), ("ml", 0.7)] :=
  roundtrip_amended _ (by simp)

end HRBrain
